import Mathlib

/-!
Shallow embedding of the spreadsheet batch-merge utility.

The source is a browser application consisting of an ingestion controller
(`handleFileUpload` / `processFiles` in App.tsx), a keyword filter
(`filteredFiles` in App.tsx), a spreadsheet decoder (`readExcelFile`),
a merge engine (`mergeFiles`), a download-name helper (`downloadBlob`
together with `handleMergeAllMatched`), and a best-effort schema
suggestion service (`getSmartMapping`).

Rows are modelled as association lists from column name to cell value,
mirroring plain JavaScript objects (unique keys in insertion order).
External effects (the file reader, the xlsx codec, the remote generation
API) are modelled by explicit outcome values handed to the embedded
functions, so every embedded function is total and pure.
-/

/-- JavaScript `String.prototype.startsWith` on character lists. -/
def charsStart : List Char → List Char → Bool
  | [], _ => true
  | _ :: _, [] => false
  | a :: ps, b :: ts => a == b && charsStart ps ts

/-- Does the text (second argument) contain the pattern (first) as a
contiguous substring?  Mirrors JavaScript `String.prototype.includes`. -/
def hasSub (pat : List Char) : List Char → Bool
  | [] => charsStart pat []
  | t :: ts => charsStart pat (t :: ts) || hasSub pat ts

/-- `s.includes(pat)` on strings. -/
def strIncludes (s pat : String) : Bool := hasSub pat.data s.data

/-- JavaScript `String.prototype.toLowerCase` (character-wise lowering). -/
def strToLower (s : String) : String := String.mk (s.data.map Char.toLower)

/-- JavaScript `String.prototype.endsWith`: a suffix is a reversed prefix. -/
def strEndsWith (s pat : String) : Bool := charsStart pat.data.reverse s.data.reverse

/-- Drop leading whitespace characters. -/
def dropWhite : List Char → List Char
  | [] => []
  | c :: cs => if c.isWhitespace then dropWhite cs else c :: cs

/-- JavaScript `String.prototype.trim`: strip whitespace at both ends. -/
def jsTrim (s : String) : String :=
  String.mk (dropWhite (dropWhite s.data).reverse).reverse

/-- Processing status of a registered file (types.ts `FileItem.status`). -/
inductive Status where
  | pending
  | processing
  | done
  | error
deriving DecidableEq

/-- One spreadsheet row: a JavaScript object mapping column names to cell
values, kept in insertion order. -/
abbrev Row := List (String × String)

/-- Property read `row[k]`: first binding of the key, if any. -/
def getKey : Row → String → Option String
  | [], _ => none
  | (k, v) :: rest, key => if k = key then some v else getKey rest key

/-- Property write `row[k] = val`: overwrite in place if the key exists
(keeping its position), otherwise append the new binding — JavaScript
object assignment semantics. -/
def setKey : Row → String → String → Row
  | [], key, val => [(key, val)]
  | (k, v) :: rest, key, val =>
    if k = key then (k, val) :: rest else (k, v) :: setKey rest key val

/-- Decoded table of one sheet: the row list produced by the codec plus the
header list (`Object.keys` of the first row, or empty). -/
structure Table where
  rows : List Row
  headers : List String
deriving DecidableEq

/-- A registered file entry (types.ts `FileItem`).  The opaque `File`
handle is owned by the host environment and carries no observable state
for the embedded pipeline, so it is omitted. -/
structure FileItem where
  id : String
  name : String
  path : String
  size : Nat
  status : Status
  data : Option (List Row) := none
  headers : Option (List String) := none
  errorMessage : Option String := none
deriving DecidableEq

/-- Merge configuration (types.ts `MergeOptions`). -/
structure MergeOptions where
  addSourceColumn : Bool
  sourceColumnName : String
  useSmartMapping : Bool
  sheetIndex : Nat
  outputFileName : String
  filterKeyword : String
deriving DecidableEq

/-- A raw file as delivered by the host file picker: name, the
`webkitRelativePath` (empty string when absent, as in JavaScript), size. -/
structure RawFile where
  name : String
  relPath : String
  size : Nat
deriving DecidableEq

/-- A workbook as produced by the xlsx codec: sheets in `SheetNames`
order, each with its name and the row list `sheet_to_json` yields for it
(cells missing in a row already defaulted to `""` by the codec option
`defval`). -/
abbrev Workbook := List (String × List Row)

/-- Outcome of the file-reader / codec stage feeding `readExcelFile`:
the reader errors, delivers no data, the codec throws, or a workbook is
obtained. -/
inductive ReadOutcome where
  | readerFailed
  | emptyResult
  | parseFailed (msg : String)
  | parsed (wb : Workbook)
deriving DecidableEq

/-- Decode failures, per the spec's taxonomy. -/
inductive DecodeError where
  | sheetNotFound (idx : Nat) (available : List String)
  | unreadable (msg : String)
deriving DecidableEq

/-- The human-readable message carried by a decode failure, as built by
the source's `throw new Error(...)` sites. -/
def errMessage : DecodeError → String
  | .sheetNotFound idx available =>
      "Sheet at index " ++ toString idx ++ " not found. Available sheets: "
        ++ String.intercalate ", " available
  | .unreadable msg => msg

/-- `readExcelFile` (excelService): resolve the sheet at `sheetIndex` by
position; a missing (or falsy, i.e. empty-named) sheet name rejects with
the sheet-not-found error naming the available sheets; otherwise the
sheet's rows become the table and the headers are the first row's keys.
Every failure path resolves to the rejected branch of the promise,
modelled as `Except.error`. -/
def readExcelFile (outcome : ReadOutcome) (sheetIndex : Nat) : Except DecodeError Table :=
  match outcome with
  | .readerFailed => .error (.unreadable "File reading failed.")
  | .emptyResult => .error (.unreadable "No data read from file.")
  | .parseFailed msg => .error (.unreadable msg)
  | .parsed wb =>
    match wb[sheetIndex]? with
    | none => .error (.sheetNotFound sheetIndex (wb.map Prod.fst))
    | some (sheetName, rows) =>
      if sheetName = "" then .error (.sheetNotFound sheetIndex (wb.map Prod.fst))
      else
        .ok { rows := rows
              headers := match rows with
                | [] => []
                | r :: _ => r.map Prod.fst }

/-- Accepted upload extensions (App.tsx `handleFileUpload` filter):
case-sensitive suffix test for `.xlsx`, `.xls`, `.csv`. -/
def acceptedName (n : String) : Bool :=
  strEndsWith n ".xlsx" || strEndsWith n ".xls" || strEndsWith n ".csv"

/-- Build the pending entry registered for one accepted raw file.  The
path is `webkitRelativePath || name` (empty string is falsy). -/
def mkPending (newId : String) (f : RawFile) : FileItem :=
  { id := newId
    name := f.name
    path := if f.relPath = "" then f.name else f.relPath
    size := f.size
    status := .pending }

/-- The new entries one upload batch registers: accepted raw files, in
input order, each as a fresh pending entry.  `idGen` models the random id
generator, indexed by position in the accepted batch. -/
def registerFiles (raws : List RawFile) (idGen : Nat → String) : List FileItem :=
  ((raws.filter fun r => acceptedName r.name).enum).map fun p => mkPending (idGen p.1) p.2

/-- `handleFileUpload`: append the batch's new pending entries to the
registry. -/
def handleFileUpload (prev : List FileItem) (raws : List RawFile)
    (idGen : Nat → String) : List FileItem :=
  prev ++ registerFiles raws idGen

/-- `filteredFiles` (App.tsx): identity when the trimmed keyword is
empty, otherwise keep entries whose lower-cased name contains the
lower-cased keyword. -/
def filteredFiles (files : List FileItem) (filterKeyword : String) : List FileItem :=
  if jsTrim filterKeyword = "" then files
  else files.filter fun f => strIncludes (strToLower f.name) (strToLower filterKeyword)

/-- Registry update setting one entry's status to `processing` by id
(first half of a `processFiles` iteration). -/
def setProcessing (reg : List FileItem) (i : String) : List FileItem :=
  reg.map fun f => if f.id == i then { f with status := .processing } else f

/-- Registry update recording one entry's decode outcome by id (second
half of a `processFiles` iteration): success stores the table and moves
to `done`, failure stores the message and moves to `error`. -/
def setOutcome (reg : List FileItem) (i : String)
    (outcome : Except DecodeError Table) : List FileItem :=
  reg.map fun f =>
    if f.id == i then
      match outcome with
      | .ok t => { f with status := .done, data := some t.rows, headers := some t.headers }
      | .error e => { f with status := .error, errorMessage := some (errMessage e) }
    else f

/-- The sequence of registry states `processFiles` makes observable:
for each batch item in order, the state after its `processing` update and
the state after its outcome update. -/
def processTrace (reg : List FileItem)
    (batch : List (String × Except DecodeError Table)) : List (List FileItem) :=
  match batch with
  | [] => []
  | (i, o) :: rest =>
    setProcessing reg i
      :: setOutcome (setProcessing reg i) i o
      :: processTrace (setOutcome (setProcessing reg i) i o) rest

/-- `removeFile` (App.tsx): drop the entry with the given id. -/
def removeFile (reg : List FileItem) (i : String) : List FileItem :=
  reg.filter fun f => f.id != i

/-- `clearFiles` (App.tsx): empty the registry. -/
def clearFiles : List FileItem := []

/-- Status of the entry with the given id, if present. -/
def statusOf (reg : List FileItem) (i : String) : Option Status :=
  (reg.find? fun f => f.id == i).map FileItem.status

/-- The merge loop's participation guard (`mergeFiles`): only entries in
`done` status with a present table contribute rows. -/
def participates (f : FileItem) : Bool := f.status == Status.done && f.data.isSome

/-- One output row of the merge: a shallow copy of the input row, with
the source column written over it when configured. -/
def processRow (opts : MergeOptions) (srcPath : String) (row : Row) : Row :=
  if opts.addSourceColumn then setKey row opts.sourceColumnName srcPath else row

/-- One iteration of the `allData` accumulation loop of `mergeFiles`:
skip the entry when it is not `done` or has no table
(`continue`), otherwise append its processed rows. -/
def mergeStep (opts : MergeOptions) (acc : List Row) (f : FileItem) : List Row :=
  if f.status == Status.done then
    match f.data with
    | some rows => acc ++ rows.map (processRow opts f.path)
    | none => acc
  else acc

/-- The `allData` accumulation loop of `mergeFiles` over all entries. -/
def mergeRows (files : List FileItem) (opts : MergeOptions) : List Row :=
  files.foldl (mergeStep opts) []

/-- `mergeFiles`: build `allData`; when it is empty throw the no-data
error (no bytes are produced), otherwise hand the rows to the serializer.
The workbook serialization itself is the external codec's job, so the
embedding returns the row list the single `"MergedData"` sheet is built
from. -/
def mergeFiles (files : List FileItem) (opts : MergeOptions) : Except String (List Row) :=
  let allData := mergeRows files opts
  if allData.length = 0 then .error "No data to merge." else .ok allData

/-- `downloadBlob`'s delivered file name: append `.xlsx` unless already
present. -/
def downloadName (fileName : String) : String :=
  if strEndsWith fileName ".xlsx" then fileName else fileName ++ ".xlsx"

/-- The name a merge download is delivered under (`handleMergeAllMatched`
composed with `downloadBlob`): the configured output name, defaulted to
`merged_result` when empty (JavaScript `||`), then suffixed. -/
def mergeDownloadName (outputFileName : String) : String :=
  downloadName (if outputFileName = "" then "merged_result" else outputFileName)

/-- Outcome of the remote generation call inside `getSmartMapping`: the
call throws, the response text fails `JSON.parse`, or it parses with an
optional `unifiedHeaders` field. -/
inductive RemoteOutcome where
  | callFailed
  | parseFailed
  | parsed (unifiedHeaders : Option (List String))
deriving DecidableEq

/-- JavaScript `Set` insertion: keep first occurrence only. -/
def addUnique (acc : List String) (c : String) : List String :=
  if acc.contains c then acc else acc ++ [c]

/-- The catch-branch fallback of `getSmartMapping`: the set union of all
header strings in first-seen order (a `Set` filled left to right, then
`Array.from`). -/
def unionFallback (fileHeaders : List (List String)) : List String :=
  fileHeaders.foldl (fun acc h => h.foldl addUnique acc) []

/-- `getSmartMapping` (geminiService): empty input short-circuits; a
thrown failure (network error or malformed JSON) is caught and recovered
by the local union fallback; a parsed response yields its
`unifiedHeaders` field, defaulted to the empty list when absent
(`result.unifiedHeaders || []`). -/
def getSmartMapping (outcome : RemoteOutcome) (fileHeaders : List (List String)) :
    List String :=
  if fileHeaders.length < 1 then []
  else
    match outcome with
    | .callFailed => unionFallback fileHeaders
    | .parseFailed => unionFallback fileHeaders
    | .parsed none => []
    | .parsed (some hs) => hs

/-- The rows a single entry contributes to the merge output. -/
def entryRows (opts : MergeOptions) (f : FileItem) : List Row :=
  (f.data.getD []).map (processRow opts f.path)

/-- The status transitions the spec's lifecycle permits between two
observations of the same entry: staying put, `pending → processing`, or
`processing → done | error`.  In particular `done` and `error` admit no
outgoing change. -/
def allowedStatusStep (s t : Status) : Prop :=
  s = t
    ∨ (s = Status.pending ∧ t = Status.processing)
    ∨ (s = Status.processing ∧ (t = Status.done ∨ t = Status.error))

/-- Two successive registry states evolve legally when every entry alive
in both takes an allowed status step. -/
def allowedEvolution (r r' : List FileItem) : Prop :=
  ∀ i s t, statusOf r i = some s → statusOf r' i = some t → allowedStatusStep s t

/-- Demo merge configuration with the source column enabled. -/
def optsDemo : MergeOptions :=
  { addSourceColumn := true, sourceColumnName := "src", useSmartMapping := true,
    sheetIndex := 0, outputFileName := "out", filterKeyword := "" }

/-- Demo entry: decoded successfully to an empty table. -/
def itemEmptyTable : FileItem :=
  { id := "a", name := "a.xlsx", path := "folder/a.xlsx", size := 1,
    status := Status.done, data := some [] }

/-- Demo rows for a three-row entry. -/
def rowsThree : List Row := [[("h", "1")], [("h", "2")], [("h", "3")]]

/-- Demo rows for a five-row entry. -/
def rowsFive : List Row :=
  [[("h", "4")], [("h", "5")], [("h", "6")], [("h", "7")], [("h", "8")]]

/-- Demo entry holding three rows. -/
def itemThree : FileItem :=
  { id := "t3", name := "three.xlsx", path := "folder/three.xlsx", size := 3,
    status := Status.done, data := some rowsThree, headers := some ["h"] }

/-- Demo entry holding five rows. -/
def itemFive : FileItem :=
  { id := "t5", name := "five.xlsx", path := "folder/five.xlsx", size := 5,
    status := Status.done, data := some rowsFive, headers := some ["h"] }

/-- Demo entry whose name matches the keyword `REPORT` case-insensitively. -/
def itemReport : FileItem :=
  { id := "r", name := "Report_Jan.xlsx", path := "Report_Jan.xlsx", size := 2,
    status := Status.done, data := some rowsThree, headers := some ["h"] }

/-- Demo entry whose name does not contain `report`. -/
def itemSummary : FileItem :=
  { id := "s", name := "summary.csv", path := "summary.csv", size := 2,
    status := Status.done, data := some rowsFive, headers := some ["h"] }

/-- Demo raw file with an accepted extension. -/
def rawReport : RawFile := { name := "Report_Jan.xlsx", relPath := "", size := 2 }

/-- Demo raw file with a rejected extension. -/
def rawNotes : RawFile := { name := "notes.txt", relPath := "", size := 2 }

/-- Deterministic id oracle for witnesses. -/
def demoIdGen (n : Nat) : String := "id" ++ toString n

theorem getKey_setKey_self (r : Row) (k v : String) : getKey (setKey r k v) k = some v := by
  induction r with
  | nil => simp [setKey, getKey]
  | cons p rest ih =>
    obtain ⟨a, b⟩ := p
    by_cases h : a = k
    · subst h; simp [setKey, getKey]
    · simp [setKey, getKey, h, ih]

theorem getKey_setKey_ne (r : Row) (k v k' : String) (h : k' ≠ k) :
    getKey (setKey r k v) k' = getKey r k' := by
  have hks : k ≠ k' := fun e => h e.symm
  induction r with
  | nil => simp [setKey, getKey, hks]
  | cons p rest ih =>
    obtain ⟨a, b⟩ := p
    by_cases ha : a = k
    · subst ha
      have ha' : a ≠ k' := fun e => h e.symm
      simp [setKey, getKey, ha']
    · by_cases ha' : a = k'
      · subst ha'; simp [setKey, getKey, ha]
      · simp [setKey, getKey, ha, ha', ih]

theorem mergeStep_of_participates (opts : MergeOptions) (acc : List Row) (f : FileItem)
    (hp : participates f = true) : mergeStep opts acc f = acc ++ entryRows opts f := by
  simp only [participates, Bool.and_eq_true, beq_iff_eq, Option.isSome_iff_exists] at hp
  obtain ⟨hst, rows, hd⟩ := hp
  simp [mergeStep, entryRows, hst, hd]

theorem mergeStep_of_skip (opts : MergeOptions) (acc : List Row) (f : FileItem)
    (hp : participates f = false) : mergeStep opts acc f = acc := by
  unfold mergeStep
  cases hs : (f.status == Status.done) with
  | true =>
    cases hd : f.data with
    | none => simp
    | some rows =>
      exfalso
      simp [participates, hs, hd] at hp
  | false => simp

theorem mergeRows_foldl (opts : MergeOptions) :
    ∀ (files : List FileItem) (acc : List Row),
      files.foldl (mergeStep opts) acc
        = acc ++ (files.filter participates).flatMap (entryRows opts) := by
  intro files
  induction files with
  | nil => intro acc; simp
  | cons f rest ih =>
    intro acc
    simp only [List.foldl_cons, List.filter_cons]
    cases hp : participates f with
    | true =>
      rw [mergeStep_of_participates opts acc f hp]
      simp [hp, ih, List.append_assoc]
    | false =>
      rw [mergeStep_of_skip opts acc f hp]
      simp [hp, ih]

theorem mergeRows_eq_flatMap (files : List FileItem) (opts : MergeOptions) :
    mergeRows files opts = (files.filter participates).flatMap (entryRows opts) := by
  simpa [mergeRows] using mergeRows_foldl opts files []

theorem mergeFiles_error_iff_nil (files : List FileItem) (opts : MergeOptions) :
    mergeFiles files opts = Except.error "No data to merge." ↔ mergeRows files opts = [] := by
  cases h : mergeRows files opts with
  | nil => simp [mergeFiles, h]
  | cons r rs => simp [mergeFiles, h]

theorem mergeRows_nil_iff (files : List FileItem) (opts : MergeOptions) :
    mergeRows files opts = []
      ↔ ∀ f ∈ files, ∀ rows, f.status = Status.done → f.data = some rows → rows = [] := by
  rw [mergeRows_eq_flatMap, List.flatMap_eq_nil_iff]
  constructor
  · intro h f hf rows hst hd
    have hp : participates f = true := by simp [participates, hst, hd]
    have := h f (List.mem_filter.mpr ⟨hf, hp⟩)
    simpa [entryRows, hd] using this
  · intro h f hf
    obtain ⟨hmem, hp⟩ := List.mem_filter.mp hf
    simp only [participates, Bool.and_eq_true, beq_iff_eq, Option.isSome_iff_exists] at hp
    obtain ⟨hst, rows, hd⟩ := hp
    have := h f hmem rows hst hd
    simp [entryRows, hd, this]

/-- Claim C1 (amended): `mergeFiles` fails with the no-data error exactly
when the participating entries contribute zero rows in total, i.e. every
entry that is `done` with a present table has an empty table (in
particular when no entry participates at all); on that failure the
function rejects before serialization, so no output bytes are
produced. -/
theorem mergeFiles_noData_iff (files : List FileItem) (opts : MergeOptions) :
    mergeFiles files opts = Except.error "No data to merge."
      ↔ ∀ f ∈ files, ∀ rows, f.status = Status.done → f.data = some rows → rows = [] :=
  (mergeFiles_error_iff_nil files opts).trans (mergeRows_nil_iff files opts)

/-- Claim C1 counterexample: an entry that is `done` with a present but
empty table makes the participant set non-empty, yet `mergeFiles` still
fails with the no-data error — refuting the claimed "if and only if the
participant set is empty". -/
theorem mergeFiles_noData_counterexample :
    participates itemEmptyTable = true
      ∧ mergeFiles [itemEmptyTable] optsDemo = Except.error "No data to merge." :=
  ⟨by decide, rfl⟩

theorem mergeFiles_noData_iff_witness :
    mergeFiles [{ itemEmptyTable with data := none }] optsDemo
      = Except.error "No data to merge." :=
  (mergeFiles_noData_iff [{ itemEmptyTable with data := none }] optsDemo).mpr (by
    intro f hf rows hst hd
    simp only [List.mem_singleton] at hf
    subst hf
    simp [itemEmptyTable] at hd)

/-- Claim C4: merge output is the concatenation of the participating
entries' processed rows in entry order, preserving per-entry row order,
with no interleaving, sorting or deduplication; merging two `done`
entries with `r` and `s` rows yields `r ++ s` processed in that order,
of length `|r| + |s|`. -/
theorem mergeRows_ordering (files : List FileItem) (opts : MergeOptions) :
    mergeRows files opts = (files.filter participates).flatMap (entryRows opts)
    ∧ ∀ (f g : FileItem) (r s : List Row),
        f.status = Status.done → f.data = some r →
        g.status = Status.done → g.data = some s →
        mergeRows [f, g] opts
            = r.map (processRow opts f.path) ++ s.map (processRow opts g.path)
          ∧ (mergeRows [f, g] opts).length = r.length + s.length := by
  refine ⟨mergeRows_eq_flatMap files opts, ?_⟩
  intro f g r s hf hfd hg hgd
  have hpf : participates f = true := by simp [participates, hf, hfd]
  have hpg : participates g = true := by simp [participates, hg, hgd]
  have h : mergeRows [f, g] opts
      = r.map (processRow opts f.path) ++ s.map (processRow opts g.path) := by
    rw [mergeRows_eq_flatMap]
    simp [List.filter_cons, hpf, hpg, entryRows, hfd, hgd]
  exact ⟨h, by simp [h]⟩

theorem mergeRows_ordering_witness :
    mergeRows [itemThree, itemFive] optsDemo
        = rowsThree.map (processRow optsDemo itemThree.path)
          ++ rowsFive.map (processRow optsDemo itemFive.path)
      ∧ (mergeRows [itemThree, itemFive] optsDemo).length = 8 := by
  obtain ⟨-, h⟩ := mergeRows_ordering [itemThree, itemFive] optsDemo
  obtain ⟨h1, h2⟩ := h itemThree itemFive rowsThree rowsFive rfl rfl rfl rfl
  exact ⟨h1, h2.trans (by decide)⟩

/-- Claim C3: each participating entry's rows are emitted as shallow
copies; with `addSourceColumn` the copy carries `sourceColumnName ↦ path`
(insert-or-overwrite, so last-write-wins over a pre-existing key), every
other key is untouched, and the entry's stored table is unchanged (the
embedding is pure, so the final conjunct records that the entry still
holds its original rows after the merge). -/
theorem merge_row_copy (files : List FileItem) (opts : MergeOptions) (f : FileItem)
    (rows : List Row) (r : Row)
    (hf : f ∈ files) (hst : f.status = Status.done) (hd : f.data = some rows)
    (hr : r ∈ rows) (ha : opts.addSourceColumn = true) :
    processRow opts f.path r ∈ mergeRows files opts
    ∧ getKey (processRow opts f.path r) opts.sourceColumnName = some f.path
    ∧ (∀ k, k ≠ opts.sourceColumnName → getKey (processRow opts f.path r) k = getKey r k)
    ∧ f.data = some rows := by
  have hp : participates f = true := by simp [participates, hst, hd]
  refine ⟨?_, ?_, ?_, hd⟩
  · rw [mergeRows_eq_flatMap]
    refine List.mem_flatMap.mpr ⟨f, List.mem_filter.mpr ⟨hf, hp⟩, ?_⟩
    simp only [entryRows, hd, Option.getD_some]
    exact List.mem_map.mpr ⟨r, hr, rfl⟩
  · simp [processRow, ha, getKey_setKey_self]
  · intro k hk
    simp [processRow, ha, getKey_setKey_ne _ _ _ _ hk]

theorem merge_row_copy_witness :
    processRow optsDemo itemThree.path [("h", "1")] ∈ mergeRows [itemThree] optsDemo
    ∧ getKey (processRow optsDemo itemThree.path [("h", "1")]) "src"
        = some "folder/three.xlsx"
    ∧ getKey (processRow optsDemo itemThree.path [("h", "1")]) "h" = some "1" := by
  obtain ⟨h1, h2, h3, -⟩ :=
    merge_row_copy [itemThree] optsDemo itemThree rowsThree [("h", "1")]
      (List.mem_singleton.mpr rfl) rfl rfl (by decide) rfl
  exact ⟨h1, h2, (h3 "h" (by decide)).trans (by decide)⟩

/-- Claim C5: the keyword filter is the identity (same members, same
order) when the trimmed keyword is empty, and otherwise is exactly the
order-preserving subsequence of entries whose lower-cased name contains
the lower-cased keyword, adding and deduplicating nothing. -/
theorem filteredFiles_spec (files : List FileItem) (kw : String) :
    (jsTrim kw = "" → filteredFiles files kw = files)
    ∧ (jsTrim kw ≠ "" →
        filteredFiles files kw
          = files.filter fun f => strIncludes (strToLower f.name) (strToLower kw))
    ∧ List.Sublist (filteredFiles files kw) files
    ∧ ∀ f, f ∈ filteredFiles files kw ↔
        f ∈ files
          ∧ (jsTrim kw ≠ "" → strIncludes (strToLower f.name) (strToLower kw) = true) := by
  by_cases h : jsTrim kw = ""
  · have heq : filteredFiles files kw = files := by simp [filteredFiles, h]
    refine ⟨fun _ => heq, fun hc => absurd h hc,
      by rw [heq], fun f => ?_⟩
    rw [heq]
    simp [h]
  · have heq : filteredFiles files kw
        = files.filter fun f => strIncludes (strToLower f.name) (strToLower kw) := by
      simp [filteredFiles, h]
    refine ⟨fun hc => absurd hc h, fun _ => heq,
      by rw [heq]; exact List.filter_sublist files, fun f => ?_⟩
    rw [heq]
    simp [h, List.mem_filter]

theorem filteredFiles_spec_witness :
    filteredFiles [itemReport, itemSummary] "" = [itemReport, itemSummary]
    ∧ filteredFiles [itemReport, itemSummary] "REPORT" = [itemReport] := by
  constructor
  · exact (filteredFiles_spec [itemReport, itemSummary] "").1 rfl
  · rw [(filteredFiles_spec [itemReport, itemSummary] "REPORT").2.1 (by decide)]
    decide

theorem registerFiles_pending (raws : List RawFile) (idGen : Nat → String) :
    ∀ f ∈ registerFiles raws idGen,
      acceptedName f.name = true ∧ f.status = Status.pending := by
  intro f hf
  unfold registerFiles at hf
  obtain ⟨⟨n, r⟩, hmem, rfl⟩ := List.mem_map.mp hf
  have hr : r ∈ raws.filter fun r => acceptedName r.name := by
    have := List.mem_map_of_mem Prod.snd hmem
    simpa [List.enum_map_snd] using this
  exact ⟨(List.mem_filter.mp hr).2, rfl⟩

/-- Claim C6: an upload batch registers exactly the files whose name ends
(case-sensitively) in `.xlsx`, `.xls` or `.csv`, each as a fresh pending
entry appended after the existing registry in input order; a file with
any other suffix never enters the registry. -/
theorem upload_registration (prev : List FileItem) (raws : List RawFile)
    (idGen : Nat → String) :
    (∀ f ∈ registerFiles raws idGen,
        acceptedName f.name = true ∧ f.status = Status.pending)
    ∧ handleFileUpload prev raws idGen = prev ++ registerFiles raws idGen
    ∧ (registerFiles raws idGen).map FileItem.name
        = (raws.filter fun r => acceptedName r.name).map RawFile.name
    ∧ ∀ f ∈ handleFileUpload prev raws idGen, f ∈ prev ∨ acceptedName f.name = true := by
  refine ⟨registerFiles_pending raws idGen, rfl, ?_, ?_⟩
  · unfold registerFiles
    rw [List.map_map]
    have hc : (FileItem.name ∘ fun p : Nat × RawFile => mkPending (idGen p.1) p.2)
        = RawFile.name ∘ Prod.snd := rfl
    rw [hc, ← List.map_map, List.enum_map_snd]
  · intro f hf
    rcases List.mem_append.mp hf with h | h
    · exact Or.inl h
    · exact Or.inr (registerFiles_pending raws idGen f h).1

theorem upload_registration_witness :
    (registerFiles [rawReport, rawNotes] demoIdGen).map FileItem.name
      = ["Report_Jan.xlsx"] := by
  rw [(upload_registration [] [rawReport, rawNotes] demoIdGen).2.2.1]
  decide

/-- Claim C7: whenever the requested sheet index is out of range of the
workbook's sheet list, decoding fails with a sheet-not-found error that
names the workbook's available sheet names; and for every reader/codec
outcome the decoder resolves to exactly one branch of the documented
result channel (ok or error), never raising past it. -/
theorem readExcelFile_sheetNotFound (wb : Workbook) (idx : Nat) (h : wb.length ≤ idx) :
    readExcelFile (ReadOutcome.parsed wb) idx
        = Except.error (DecodeError.sheetNotFound idx (wb.map Prod.fst))
    ∧ ∀ (o : ReadOutcome) (k : Nat),
        (∃ t, readExcelFile o k = Except.ok t)
          ∨ ∃ e, readExcelFile o k = Except.error e := by
  constructor
  · have hn : wb[idx]? = none := List.getElem?_eq_none h
    simp [readExcelFile, hn]
  · intro o k
    cases o with
    | readerFailed => exact Or.inr ⟨_, rfl⟩
    | emptyResult => exact Or.inr ⟨_, rfl⟩
    | parseFailed msg => exact Or.inr ⟨_, rfl⟩
    | parsed wb' =>
      cases hg : wb'[k]? with
      | none =>
        exact Or.inr ⟨DecodeError.sheetNotFound k (wb'.map Prod.fst),
          by simp [readExcelFile, hg]⟩
      | some p =>
        obtain ⟨nm, rows⟩ := p
        by_cases hnm : nm = ""
        · exact Or.inr ⟨DecodeError.sheetNotFound k (wb'.map Prod.fst),
            by simp [readExcelFile, hg, hnm]⟩
        · cases rows with
          | nil => exact Or.inl ⟨Table.mk [] [], by simp [readExcelFile, hg, hnm]⟩
          | cons r rest =>
            exact Or.inl ⟨Table.mk (r :: rest) (r.map Prod.fst),
              by simp [readExcelFile, hg, hnm]⟩

theorem readExcelFile_sheetNotFound_witness :
    readExcelFile (ReadOutcome.parsed [("S1", [])]) 1
      = Except.error (DecodeError.sheetNotFound 1 ["S1"]) :=
  (readExcelFile_sheetNotFound [("S1", [])] 1 (by decide)).1

/-- Claim C9 counterexample: with an empty configured output name the
code first defaults it to `merged_result`, so the delivered name is
`merged_result.xlsx`, not the `.xlsx` the claim (append `.xlsx` to
`config.outputFileName` when it does not already end in `.xlsx`) would
require. -/
theorem mergeDownloadName_counterexample :
    strEndsWith "" ".xlsx" = false
    ∧ mergeDownloadName "" = "merged_result.xlsx"
    ∧ mergeDownloadName "" ≠ "" ++ ".xlsx" := by
  refine ⟨by decide, by decide, by decide⟩

/-- Claim C9 (amended): for every non-empty configured output name, the
delivered file name is that name with `.xlsx` appended exactly when the
name does not already end in `.xlsx`; an empty configured name is first
replaced by the default `merged_result`. -/
theorem mergeDownloadName_nonempty (outName : String) (h : outName ≠ "") :
    mergeDownloadName outName
      = if strEndsWith outName ".xlsx" then outName else outName ++ ".xlsx" := by
  simp [mergeDownloadName, downloadName, h]

theorem mergeDownloadName_nonempty_witness :
    mergeDownloadName "report" = "report.xlsx"
    ∧ mergeDownloadName "report.xlsx" = "report.xlsx" := by
  constructor
  · rw [mergeDownloadName_nonempty "report" (by decide)]; decide
  · rw [mergeDownloadName_nonempty "report.xlsx" (by decide)]; decide

theorem mem_addUnique (acc : List String) (x c : String) :
    c ∈ addUnique acc x ↔ c ∈ acc ∨ c = x := by
  unfold addUnique
  by_cases hx : x ∈ acc
  · have h : acc.contains x = true := by simpa using hx
    rw [if_pos h]
    constructor
    · exact Or.inl
    · rintro (hc | rfl)
      · exact hc
      · exact hx
  · have h : ¬ acc.contains x = true := by simpa using hx
    rw [if_neg h]
    simp

theorem nodup_addUnique (acc : List String) (x : String) (h : acc.Nodup) :
    (addUnique acc x).Nodup := by
  unfold addUnique
  by_cases hx : x ∈ acc
  · have hc : acc.contains x = true := by simpa using hx
    rw [if_pos hc]
    exact h
  · have hc : ¬ acc.contains x = true := by simpa using hx
    rw [if_neg hc]
    simp [List.nodup_append, h, hx]

theorem mem_foldl_addUnique (h : List String) :
    ∀ (acc : List String) (c : String),
      c ∈ h.foldl addUnique acc ↔ c ∈ acc ∨ c ∈ h := by
  induction h with
  | nil => intro acc c; simp
  | cons x xs ih =>
    intro acc c
    rw [List.foldl_cons, ih, mem_addUnique]
    simp only [List.mem_cons]
    tauto

theorem nodup_foldl_addUnique (h : List String) :
    ∀ acc : List String, acc.Nodup → (h.foldl addUnique acc).Nodup := by
  induction h with
  | nil => intro acc ha; simpa
  | cons x xs ih => intro acc ha; exact ih _ (nodup_addUnique acc x ha)

theorem mem_unionFold (L : List (List String)) :
    ∀ (acc : List String) (c : String),
      c ∈ L.foldl (fun acc h => h.foldl addUnique acc) acc
        ↔ c ∈ acc ∨ ∃ h ∈ L, c ∈ h := by
  induction L with
  | nil => intro acc c; simp
  | cons hd tl ih =>
    intro acc c
    rw [List.foldl_cons, ih, mem_foldl_addUnique]
    simp only [List.mem_cons]
    constructor
    · rintro ((hc | hc) | ⟨h, hh, hc⟩)
      · exact Or.inl hc
      · exact Or.inr ⟨hd, Or.inl rfl, hc⟩
      · exact Or.inr ⟨h, Or.inr hh, hc⟩
    · rintro (hc | ⟨h, (rfl | hh), hc⟩)
      · exact Or.inl (Or.inl hc)
      · exact Or.inl (Or.inr hc)
      · exact Or.inr ⟨h, hh, hc⟩

theorem nodup_unionFold (L : List (List String)) :
    ∀ acc : List String, acc.Nodup →
      (L.foldl (fun acc h => h.foldl addUnique acc) acc).Nodup := by
  induction L with
  | nil => intro acc ha; simpa
  | cons hd tl ih => intro acc ha; exact ih _ (nodup_foldl_addUnique hd acc ha)

/-- Claim C2 counterexample: a remote response that parses but lacks the
`unifiedHeaders` field makes `getSmartMapping` return the empty list
(`result.unifiedHeaders || []`), not the union of the input headers —
refuting the claim for the "missing field" failure mode. -/
theorem getSmartMapping_missingField_counterexample :
    getSmartMapping (RemoteOutcome.parsed none) [["A"]] = []
    ∧ unionFallback [["A"]] = ["A"]
    ∧ "A" ∉ getSmartMapping (RemoteOutcome.parsed none) [["A"]] :=
  ⟨rfl, rfl, by decide⟩

/-- Claim C2 (amended): for every non-empty input, when the remote call
throws (network error) or its response text fails JSON parsing, the
failure is caught and `getSmartMapping` returns the deduplicated set
union of all input header strings; a successfully parsed response
missing the `unifiedHeaders` field instead yields the empty list (see
the counterexample). -/
theorem getSmartMapping_fallback_union (fileHeaders : List (List String))
    (outcome : RemoteOutcome) (hne : fileHeaders ≠ [])
    (hout : outcome = RemoteOutcome.callFailed ∨ outcome = RemoteOutcome.parseFailed) :
    (∀ c, c ∈ getSmartMapping outcome fileHeaders ↔ ∃ h ∈ fileHeaders, c ∈ h)
    ∧ (getSmartMapping outcome fileHeaders).Nodup := by
  have hlen : ¬ fileHeaders.length < 1 := by
    cases fileHeaders with
    | nil => exact absurd rfl hne
    | cons a l => simp
  have hgs : getSmartMapping outcome fileHeaders = unionFallback fileHeaders := by
    rcases hout with rfl | rfl <;> simp [getSmartMapping, hlen]
  rw [hgs]
  constructor
  · intro c
    have := mem_unionFold fileHeaders [] c
    simpa [unionFallback] using this
  · exact nodup_unionFold fileHeaders [] List.nodup_nil

theorem getSmartMapping_fallback_union_witness :
    "C" ∈ getSmartMapping RemoteOutcome.callFailed [["A", "B"], ["B", "C"]]
    ∧ (getSmartMapping RemoteOutcome.callFailed [["A", "B"], ["B", "C"]]).Nodup := by
  obtain ⟨hmem, hnd⟩ :=
    getSmartMapping_fallback_union [["A", "B"], ["B", "C"]] RemoteOutcome.callFailed
      (by decide) (Or.inl rfl)
  exact ⟨(hmem "C").mpr ⟨["B", "C"], by decide, by decide⟩, hnd⟩

theorem find?_map_of_id (g : FileItem → FileItem) (hg : ∀ f, (g f).id = f.id)
    (reg : List FileItem) (i : String) :
    (reg.map g).find? (fun f => f.id == i) = (reg.find? fun f => f.id == i).map g := by
  induction reg with
  | nil => rfl
  | cons a t ih =>
    simp only [List.map_cons, List.find?_cons, hg a]
    cases h : (a.id == i) with
    | true => rfl
    | false => exact ih

theorem statusOf_map (g : FileItem → FileItem) (hg : ∀ f, (g f).id = f.id)
    (reg : List FileItem) (i : String) :
    statusOf (reg.map g) i = (reg.find? fun f => f.id == i).map fun f => (g f).status := by
  unfold statusOf
  rw [find?_map_of_id g hg]
  cases reg.find? fun f => f.id == i <;> rfl

theorem setProcessing_preserves_id (i : String) (f : FileItem) :
    (if f.id == i then { f with status := Status.processing } else f).id = f.id := by
  by_cases h : (f.id == i) = true <;> simp [h]

theorem setOutcome_preserves_id (i : String) (o : Except DecodeError Table) (f : FileItem) :
    (if f.id == i then
        match o with
        | .ok t => { f with status := Status.done, data := some t.rows,
                            headers := some t.headers }
        | .error e => { f with status := Status.error,
                               errorMessage := some (errMessage e) }
      else f).id = f.id := by
  by_cases h : (f.id == i) = true <;> cases o <;> simp [h]

theorem statusOf_setProcessing_self (reg : List FileItem) (i : String) :
    statusOf (setProcessing reg i) i = (statusOf reg i).map fun _ => Status.processing := by
  unfold setProcessing
  rw [statusOf_map _ (setProcessing_preserves_id i) reg i]
  unfold statusOf
  cases hfind : reg.find? fun f => f.id == i with
  | none => rfl
  | some f =>
    have hfj : f.id = i := by simpa using List.find?_some hfind
    simp [hfj]

theorem statusOf_setProcessing_ne (reg : List FileItem) (i j : String) (h : j ≠ i) :
    statusOf (setProcessing reg i) j = statusOf reg j := by
  unfold setProcessing
  rw [statusOf_map _ (setProcessing_preserves_id i) reg j]
  unfold statusOf
  cases hfind : reg.find? fun f => f.id == j with
  | none => rfl
  | some f =>
    have hfj : f.id = j := by simpa using List.find?_some hfind
    have hfi : f.id ≠ i := by rw [hfj]; exact h
    simp [hfi]

theorem statusOf_setOutcome_self (reg : List FileItem) (i : String)
    (o : Except DecodeError Table) :
    statusOf (setOutcome reg i o) i
      = (statusOf reg i).map fun _ =>
          match o with
          | .ok _ => Status.done
          | .error _ => Status.error := by
  unfold setOutcome
  rw [statusOf_map _ (setOutcome_preserves_id i o) reg i]
  unfold statusOf
  cases hfind : reg.find? fun f => f.id == i with
  | none => cases o <;> rfl
  | some f =>
    have hfj : f.id = i := by simpa using List.find?_some hfind
    cases o <;> simp [hfj]

theorem statusOf_setOutcome_ne (reg : List FileItem) (i j : String)
    (o : Except DecodeError Table) (h : j ≠ i) :
    statusOf (setOutcome reg i o) j = statusOf reg j := by
  unfold setOutcome
  rw [statusOf_map _ (setOutcome_preserves_id i o) reg j]
  unfold statusOf
  cases hfind : reg.find? fun f => f.id == j with
  | none => rfl
  | some f =>
    have hfj : f.id = j := by simpa using List.find?_some hfind
    have hfi : f.id ≠ i := by rw [hfj]; exact h
    cases o <;> simp [hfi]

theorem evolution_setProcessing (reg : List FileItem) (i : String)
    (h : statusOf reg i = some Status.pending) :
    allowedEvolution reg (setProcessing reg i) := by
  intro j s t hs ht
  by_cases hji : j = i
  · subst hji
    have hs' : s = Status.pending := by
      rw [h] at hs
      exact (Option.some.inj hs).symm
    have ht' : t = Status.processing := by
      rw [statusOf_setProcessing_self, h] at ht
      exact (Option.some.inj ht).symm
    exact Or.inr (Or.inl ⟨hs', ht'⟩)
  · rw [statusOf_setProcessing_ne reg i j hji, hs] at ht
    exact Or.inl (Option.some.inj ht)

theorem evolution_setOutcome (reg : List FileItem) (i : String)
    (o : Except DecodeError Table)
    (h : statusOf reg i = some Status.processing) :
    allowedEvolution reg (setOutcome reg i o) := by
  intro j s t hs ht
  by_cases hji : j = i
  · subst hji
    have hs' : s = Status.processing := by
      rw [h] at hs
      exact (Option.some.inj hs).symm
    rw [statusOf_setOutcome_self, h] at ht
    refine Or.inr (Or.inr ⟨hs', ?_⟩)
    cases o with
    | ok t' => exact Or.inl (Option.some.inj ht).symm
    | error e => exact Or.inr (Option.some.inj ht).symm
  · rw [statusOf_setOutcome_ne reg i j o hji, hs] at ht
    exact Or.inl (Option.some.inj ht)

theorem processTrace_chain :
    ∀ (batch : List (String × Except DecodeError Table)) (reg : List FileItem),
      (batch.map Prod.fst).Nodup →
      (∀ p ∈ batch, statusOf reg p.1 = some Status.pending) →
      List.Chain' allowedEvolution (reg :: processTrace reg batch) := by
  intro batch
  induction batch with
  | nil =>
    intro reg _ _
    simp [processTrace]
  | cons hd rest ih =>
    intro reg hnd hp
    obtain ⟨i, o⟩ := hd
    have hpend : statusOf reg i = some Status.pending := hp (i, o) (List.mem_cons_self _ _)
    have hproc : statusOf (setProcessing reg i) i = some Status.processing := by
      rw [statusOf_setProcessing_self, hpend]
      rfl
    have hnd' : (i :: rest.map Prod.fst).Nodup := by simpa using hnd
    simp only [processTrace]
    rw [List.chain'_cons]
    refine ⟨evolution_setProcessing reg i hpend, ?_⟩
    rw [List.chain'_cons]
    refine ⟨evolution_setOutcome (setProcessing reg i) i o hproc, ?_⟩
    apply ih
    · exact (List.nodup_cons.mp hnd').2
    · intro p hpmem
      have hne : p.1 ≠ i := by
        intro he
        exact (List.nodup_cons.mp hnd').1 (he ▸ List.mem_map_of_mem Prod.fst hpmem)
      rw [statusOf_setOutcome_ne _ i p.1 o hne, statusOf_setProcessing_ne _ i p.1 hne]
      exact hp p (List.mem_cons_of_mem _ hpmem)

theorem find?_append_of_some (p : FileItem → Bool) (l₁ l₂ : List FileItem) (a : FileItem)
    (h : l₁.find? p = some a) : (l₁ ++ l₂).find? p = some a := by
  rw [List.find?_append, h]
  rfl

theorem statusOf_cons (a : FileItem) (t : List FileItem) (j : String) :
    statusOf (a :: t) j = if a.id == j then some a.status else statusOf t j := by
  by_cases h : (a.id == j) = true
  · simp [statusOf, List.find?_cons_of_pos _ h, h]
  · simp [statusOf, List.find?_cons_of_neg _ h, h]

theorem statusOf_removeFile_self (reg : List FileItem) (i : String) :
    statusOf (removeFile reg i) i = none := by
  have hfind : (removeFile reg i).find? (fun f => f.id == i) = none := by
    rw [List.find?_eq_none]
    intro f hf
    have := (List.mem_filter.mp hf).2
    simp only [bne_iff_ne, ne_eq] at this
    simp [this]
  unfold statusOf
  rw [hfind]
  rfl

theorem statusOf_removeFile (reg : List FileItem) (i j : String) (s : Status)
    (h : statusOf (removeFile reg i) j = some s) : statusOf reg j = some s := by
  have hji : j ≠ i := by
    intro he
    subst he
    rw [statusOf_removeFile_self] at h
    exact Option.noConfusion h
  revert h
  induction reg with
  | nil =>
    intro h
    simp [removeFile, statusOf] at h
  | cons a t ih =>
    intro h
    rw [statusOf_cons]
    by_cases ha : (a.id == j) = true
    · have haj : a.id = j := by simpa using ha
      have hai : (a.id != i) = true := by simp [haj, hji]
      have hrm : removeFile (a :: t) i = a :: removeFile t i := by
        simp [removeFile, List.filter_cons, hai]
      rw [hrm, statusOf_cons, if_pos ha] at h
      rw [if_pos ha]
      exact h
    · rw [if_neg ha]
      by_cases hai : (a.id != i) = true
      · have hrm : removeFile (a :: t) i = a :: removeFile t i := by
          simp [removeFile, List.filter_cons, hai]
        rw [hrm, statusOf_cons, if_neg ha] at h
        exact ih h
      · have hai' : (a.id != i) = false := by simpa using hai
        have hrm : removeFile (a :: t) i = removeFile t i := by
          simp [removeFile, List.filter_cons, hai']
        rw [hrm] at h
        exact ih h

/-- Claim C8: every registered entry starts in `pending`; along the
observable registry states of an upload followed by its sequential
processing run, each entry's status only ever steps
`pending → processing → done | error` (with `done`/`error` terminal and
no re-processing, given the batch processes each fresh id once);
removal only deletes entries — it never changes a surviving entry's
status — and clearing leaves no entry with any status. -/
theorem status_lifecycle (prev : List FileItem) (raws : List RawFile)
    (idGen : Nat → String) (batch : List (String × Except DecodeError Table))
    (hnd : (batch.map Prod.fst).Nodup)
    (hp : ∀ p ∈ batch,
        statusOf (handleFileUpload prev raws idGen) p.1 = some Status.pending) :
    (∀ f ∈ registerFiles raws idGen, f.status = Status.pending)
    ∧ List.Chain' allowedEvolution
        (prev :: handleFileUpload prev raws idGen
          :: processTrace (handleFileUpload prev raws idGen) batch)
    ∧ (∀ (reg : List FileItem) (i j : String) (s : Status),
        statusOf (removeFile reg i) j = some s → statusOf reg j = some s)
    ∧ ∀ i : String, statusOf clearFiles i = none := by
  refine ⟨fun f hf => (registerFiles_pending raws idGen f hf).2, ?_,
    fun reg i j s h => statusOf_removeFile reg i j s h, fun i => rfl⟩
  rw [List.chain'_cons]
  refine ⟨?_, processTrace_chain batch _ hnd hp⟩
  intro j s t hs ht
  left
  have hfind : ∃ f, (prev.find? fun f => f.id == j) = some f ∧ f.status = s := by
    unfold statusOf at hs
    cases hf : prev.find? fun f => f.id == j with
    | none => rw [hf] at hs; exact absurd hs (by simp)
    | some f => rw [hf] at hs; exact ⟨f, rfl, Option.some.inj hs⟩
  obtain ⟨f, hf, hfs⟩ := hfind
  have hup : statusOf (handleFileUpload prev raws idGen) j = some s := by
    unfold handleFileUpload statusOf
    rw [find?_append_of_some _ prev _ f hf]
    rw [Option.map_some']
    exact congrArg some hfs
  rw [hup] at ht
  exact Option.some.inj ht

theorem status_lifecycle_witness :
    List.Chain' allowedEvolution
      ([] :: handleFileUpload [] [rawReport] demoIdGen
        :: processTrace (handleFileUpload [] [rawReport] demoIdGen)
            [("id0", Except.ok { rows := [], headers := [] })]) :=
  (status_lifecycle [] [rawReport] demoIdGen
      [("id0", Except.ok { rows := [], headers := [] })]
      (by decide) (by decide)).2.1

/-- Claim C10: a well-formed workbook whose selected sheet yields zero
data rows decodes successfully to an empty row list with an empty header
list (the `ok` branch, so the ingestion controller records `done`, not
`error` — third conjunct); and a `done` entry with an empty table
contributes zero rows to a merge, leaving the surrounding entries'
output untouched. -/
theorem emptySheet_decode_and_merge (wb : Workbook) (idx : Nat) (sheetName : String)
    (hw : wb[idx]? = some (sheetName, []))
    (hn : sheetName ≠ "")
    (e : FileItem) (hst : e.status = Status.done) (hd : e.data = some [])
    (files₁ files₂ : List FileItem) (opts : MergeOptions)
    (reg : List FileItem) (i : String) :
    readExcelFile (ReadOutcome.parsed wb) idx = Except.ok { rows := [], headers := [] }
    ∧ mergeRows (files₁ ++ e :: files₂) opts
        = mergeRows files₁ opts ++ mergeRows files₂ opts
    ∧ statusOf (setOutcome reg i (Except.ok { rows := [], headers := [] })) i
        = (statusOf reg i).map fun _ => Status.done := by
  refine ⟨by simp [readExcelFile, hw, hn], ?_, statusOf_setOutcome_self reg i _⟩
  rw [mergeRows_eq_flatMap, mergeRows_eq_flatMap, mergeRows_eq_flatMap,
    List.filter_append, List.filter_cons]
  have hpe : participates e = true := by simp [participates, hst, hd]
  simp [hpe, entryRows, hd]

theorem emptySheet_decode_and_merge_witness :
    readExcelFile (ReadOutcome.parsed [("S1", [])]) 0
        = Except.ok { rows := [], headers := [] }
    ∧ mergeRows [itemThree, itemEmptyTable, itemFive] optsDemo
        = mergeRows [itemThree] optsDemo ++ mergeRows [itemFive] optsDemo := by
  obtain ⟨h1, h2, -⟩ :=
    emptySheet_decode_and_merge [("S1", [])] 0 "S1" rfl (by decide)
      itemEmptyTable rfl rfl [itemThree] [itemFive] optsDemo [] "a"
  exact ⟨h1, h2⟩
